import Mathlib

/-!
Verification of the PrintVault printer-data pipeline.

This file gives a shallow embedding of the three Python modules of the
repository (`extract_fdm.py`, `extract_sla.py`, `main_build.py`) and proves
or refutes the frozen specification claims about them.

Embedding conventions:
* Python strings are Lean `String`s; character-level operations are written on
  `String.data` (`List Char`). Case folding and whitespace sets are modelled at
  ASCII granularity, matching the ASCII data the pipeline consumes.
* Python floats are modelled as exact rationals (`Rat`); `round(x, 2)` is
  modelled as rounding `x * 100` to the nearest integer and dividing by 100.
* Code that can raise an uncaught exception (`float(...)` on an unparseable
  value, `.lower()` on a non-string) is modelled in `Except Unit`.
* Network effects are abstracted at the call boundary: a fetch either yields a
  body (`some s`) or fails (`none`), exactly the split the Python code makes
  with its `try/except requests.exceptions.RequestException` handlers.
* Python's `dict` is modelled as an association list with insertion-order
  semantics (update-in-place keeps the original position, new keys append),
  and `list.sort` as a stable insertion sort by the same key.
-/

/-- Characters removed by Python's `str.strip()` and matched by `\s`
(ASCII whitespace). -/
def isPySpace (c : Char) : Bool :=
  c = ' ' || c = '\t' || c = '\n' || c = '\x0d' || c = '\x0b' || c = '\x0c'

/-- Strip leading and trailing Python whitespace from a character list. -/
def stripChars (l : List Char) : List Char :=
  ((l.dropWhile isPySpace).reverse.dropWhile isPySpace).reverse

/-- Python `str.strip()`. -/
def pyStrip (s : String) : String := ⟨stripChars s.data⟩

/-- Python `str.lower()` (ASCII case fold). -/
def pyLower (s : String) : String := ⟨s.data.map Char.toLower⟩

/-- Python `str.replace(a, b)` for single-character arguments. -/
def pyReplaceChar (s : String) (a b : Char) : String :=
  ⟨s.data.map (fun c => if c = a then b else c)⟩

/-- Value of a list of decimal digit characters. -/
def digitsVal (l : List Char) : Nat :=
  l.foldl (fun a c => a * 10 + (c.toNat - 48)) 0

/-- Python `float(s)` on a string, restricted to the plain decimal forms the
pipeline feeds it (optional sign, digits, optional fractional part; no
exponents). `none` models the `ValueError` Python raises. -/
def pyFloatChars (l : List Char) : Option Rat :=
  let l := stripChars l
  let sgn : Rat × List Char :=
    match l with
    | '-' :: t => (-1, t)
    | '+' :: t => (1, t)
    | _ => (1, l)
  let ip := sgn.2.takeWhile Char.isDigit
  let l₂ := sgn.2.drop ip.length
  match l₂ with
  | [] => if ip.isEmpty then none else some (sgn.1 * digitsVal ip)
  | '.' :: t =>
    let fp := t.takeWhile Char.isDigit
    let rest := t.drop fp.length
    if rest.isEmpty && !(ip.isEmpty && fp.isEmpty) then
      some (sgn.1 * ((digitsVal ip : Rat) + (digitsVal fp : Rat) / (10 : Rat) ^ fp.length))
    else none
  | _ => none

/-- Python `float(s)` on a `String`. -/
def pyFloat (s : String) : Option Rat := pyFloatChars s.data

/-- Python `round(q, 2)` on the rational model of a float. -/
def pyRound2 (q : Rat) : Rat := ((round (q * 100) : ℤ) : Rat) / 100

/-- Print volume in millimeters, the `volume` sub-dictionary of a record. -/
structure Volume where
  x : Rat
  y : Rat
  z : Rat
deriving DecidableEq

/-- A printer record as produced by either extractor (`main_build.py` §3). -/
structure Record where
  brand : String
  model : String
  technology : String
  volume : Volume
  image_url : Option String
  source : String
deriving DecidableEq

/-- Deduplication key of `main_build.normalize_key`: case fold, strip, spaces
to underscores in both components, hyphens to underscores in the model only. -/
def normalize_key (brand model : String) : String :=
  let brand_norm := pyReplaceChar (pyStrip (pyLower brand)) ' ' '_'
  let model_norm := pyReplaceChar (pyReplaceChar (pyStrip (pyLower model)) ' ' '_') '-' '_'
  brand_norm ++ "|" ++ model_norm

/-- Intra-extractor deduplication key, the f-string
`f"{brand.lower()}|{model.lower()}"` used by both extractors. -/
def intra_dedup_key (brand model : String) : String :=
  pyLower brand ++ "|" ++ pyLower model

/-- Python `dict` assignment `m[k] = v` on an insertion-ordered association
list: an existing key keeps its position, a new key is appended. -/
def dinsert (m : List (String × Record)) (k : String) (v : Record) :
    List (String × Record) :=
  match m with
  | [] => [(k, v)]
  | (k', v') :: t => if k' = k then (k, v) :: t else (k', v') :: dinsert t k v

/-- Keys of the association-list dictionary, in insertion order. -/
def dkeys (m : List (String × Record)) : List String := m.map Prod.fst

/-- Stable insertion of `x` into a list sorted by the key `k`. -/
def insertSorted {α κ : Type} [LinearOrder κ] (k : α → κ) (x : α) :
    List α → List α
  | [] => [x]
  | y :: t => if k x ≤ k y then x :: y :: t else y :: insertSorted k x t

/-- Stable sort by key `k`, the model of Python's `list.sort(key=...)`. -/
def sortByKey {α κ : Type} [LinearOrder κ] (k : α → κ) (l : List α) : List α :=
  l.foldr (insertSorted k) []

/-- Sort key `(p['brand'].lower(), p['model'].lower())` with Python's
lexicographic tuple comparison on code-point sequences. -/
def recSortKey (r : Record) : Lex (List Char × List Char) :=
  toLex ((pyLower r.brand).data, (pyLower r.model).data)

/-- Merge-dictionary key of an FDM-list record (`f"{key}|fdm"`). -/
def fdm_tech_key (p : Record) : String := normalize_key p.brand p.model ++ "|fdm"

/-- Merge-dictionary key of an SLA-list record (`f"{key}|sla"`). -/
def sla_tech_key (p : Record) : String := normalize_key p.brand p.model ++ "|sla"

/-- The merged dictionary of `merge_printers`: FDM records inserted first,
then SLA records. -/
def mergeDict (fdm_list sla_list : List Record) : List (String × Record) :=
  sla_list.foldl (fun m p => dinsert m (sla_tech_key p) p)
    (fdm_list.foldl (fun m p => dinsert m (fdm_tech_key p) p) [])

/-- `main_build.merge_printers`: build the technology-keyed dictionary, then
sort its values case-insensitively by `(brand, model)`. -/
def merge_printers (fdm_list sla_list : List Record) : List Record :=
  sortByKey recSortKey ((mergeDict fdm_list sla_list).map Prod.snd)
/-- JSON-ish values of a parsed OrcaSlicer machine file (the shapes
`parse_volume` dispatches on with `isinstance`). -/
inductive JVal where
  | s (v : String)
  | n (v : Rat)
  | arr (l : List JVal)
  | b (v : Bool)
  | null


/-- A parsed machine JSON object, as a key/value association list. -/
def PyDict : Type := List (String × JVal)

/-- Python `data.get(k)` / `k in data`. -/
def jget (d : PyDict) (k : String) : Option JVal :=
  (List.find? (fun p => p.1 == k) d).map Prod.snd

/-- Python `float(v)` on a JSON value; `none` models the raised
`ValueError`/`TypeError`. -/
def pyFloatJ (v : JVal) : Option Rat :=
  match v with
  | .n q => some q
  | .s s => pyFloat s
  | .b true => some 1
  | .b false => some 0
  | .arr _ => none
  | .null => none

/-- Python `s.split(sep)` for a single-character separator. -/
def splitChar : List Char → Char → List (List Char)
  | [], _ => [[]]
  | c :: t, sep =>
    let r := splitChar t sep
    if c = sep then [] :: r
    else
      match r with
      | h :: rt => (c :: h) :: rt
      | [] => [[c]]
/-- The coordinate-collecting loop of `parse_volume` method 1: for each
polygon point that is a string containing `'x'`, try to append
`float(parts[0])` to the x list and `float(parts[1])` to the y list,
swallowing `ValueError` (so a point whose y part fails still contributes
its x part, as in the Python mutation order). -/
def polyAccum (area : List JVal) : List Rat × List Rat :=
  area.foldl
    (fun acc point =>
      match point with
      | .s pv =>
        if pv.data.contains 'x' then
          let parts := splitChar pv.data 'x'
          match pyFloatChars (parts.headD []) with
          | none => acc
          | some a =>
            match pyFloatChars ((parts.drop 1).headD []) with
            | none => (acc.1 ++ [a], acc.2)
            | some b => (acc.1 ++ [a], acc.2 ++ [b])
        else acc
      | _ => acc)
    ([], [])

/-- Python `float(v)` where failure is an uncaught exception. -/
def exFloat (v : JVal) : Except Unit Rat :=
  match pyFloatJ v with
  | some q => .ok q
  | none => .error ()

/-- Method 1 of `parse_volume` on the `printable_area` field: the polygon
bounding-box spans, or `(0, 0)` if the field is not a list of at least 4
entries with at least one collected coordinate on each axis. -/
def method1Area : Option JVal → Rat × Rat
  | some (.arr area) =>
    if 4 ≤ area.length then
      match polyAccum area with
      | (x0 :: xt, y0 :: yt) =>
        (pyRound2 ((xt.foldl max x0) - (xt.foldl min x0)),
         pyRound2 ((yt.foldl max y0) - (yt.foldl min y0)))
      | _ => (0, 0)
    else (0, 0)
  | _ => (0, 0)

/-- Method 1 of `parse_volume` applied to the machine JSON. -/
def method1 (data : PyDict) : Rat × Rat := method1Area (jget data "printable_area")

/-- Method 2 of `parse_volume`: `float` of the two scalar bed fields. -/
def bedFallback : Option Rat → Option Rat → Except Unit (Rat × Rat)
  | some bx, some bd => .ok (bx, bd)
  | _, _ => .error ()

/-- The footprint of `parse_volume`: method 1, overridden by method 2 when
its x component is 0. -/
def footprint (data : PyDict) : Except Unit (Rat × Rat) :=
  if (method1 data).1 = 0 then
    bedFallback (pyFloatJ ((jget data "bed_width").getD (.n 0)))
      (pyFloatJ ((jget data "bed_depth").getD (.n 0)))
  else .ok (method1 data)

/-- Height resolution of `parse_volume`: `printable_height`, else
`machine_max_print_height`, else 0. -/
def heightAux : Option JVal → Option JVal → Except Unit Rat
  | some v, _ => exFloat v
  | none, some v => exFloat v
  | none, none => .ok 0

/-- Height resolution applied to the machine JSON. -/
def heightOf (data : PyDict) : Except Unit Rat :=
  heightAux (jget data "printable_height") (jget data "machine_max_print_height")

/-- Combine footprint and height, propagating the first raised exception. -/
def combineVol : Except Unit (Rat × Rat) → Except Unit Rat → Except Unit Volume
  | .ok ab, .ok c => .ok ⟨ab.1, ab.2, c⟩
  | .error e, _ => .error e
  | .ok _, .error e => .error e

/-- `extract_fdm.parse_volume`: polygon bounding box if `printable_area` is a
list of at least 4 entries with at least one parseable point, else the scalar
`bed_width`/`bed_depth` fields (defaulting to 0); height from
`printable_height`, else `machine_max_print_height`, else 0. -/
def parse_volume (data : PyDict) : Except Unit Volume :=
  combineVol (footprint data) (heightOf data)

/-- The seven captured groups of the `extract_sla.parse_machines` regex:
brand, model, two resolutions, display width/height and machine height.
Anything after the seventh group is outside the match and ignored. -/
structure SlaTuple where
  brand : String
  model : String
  resX : String
  resY : String
  dispW : String
  dispH : String
  machZ : String
deriving DecidableEq

/-- Word characters for `\w` (ASCII). -/
def isWordChar (c : Char) : Bool := c.isAlphanum || c = '_'

/-- Match a literal character sequence, returning the rest of the input. -/
def matchLit : List Char → List Char → Option (List Char)
  | [], l => some l
  | _ :: _, [] => none
  | c :: cs, d :: ds => if d = c then matchLit cs ds else none

/-- Match a literal character sequence case-insensitively. -/
def matchLitCI : List Char → List Char → Option (List Char)
  | [], l => some l
  | _ :: _, [] => none
  | c :: cs, d :: ds => if d.toLower = c.toLower then matchLitCI cs ds else none

/-- Greedy `\s*`. -/
def skipSpaces (l : List Char) : List Char := l.dropWhile isPySpace

/-- Greedy nonempty character-class match (`\w+`, `\d+`, `[\d.]+`, ...). -/
def takeClass1 (p : Char → Bool) (l : List Char) : Option (List Char × List Char) :=
  let t := l.takeWhile p
  if t.isEmpty then none else some (t, l.drop t.length)

/-- The `\s*,\s*` separators of the machine pattern. -/
def matchComma (l : List Char) : Option (List Char) :=
  match skipSpaces l with
  | ',' :: t => some (skipSpaces t)
  | _ => none

/-- Optional literal `f` suffix (`f?`). -/
def skipF : List Char → List Char
  | 'f' :: t => t
  | l => l

/-- A `([\d.]+)f?` group. -/
def matchDecimal (l : List Char) : Option (List Char × List Char) :=
  match takeClass1 (fun c => c.isDigit || c = '.') l with
  | some (g, rest) => some (g, skipF rest)
  | none => none

/-- Match `"` then `([^"]+)` then `"`. -/
def matchQuoted (l : List Char) : Option (List Char × List Char) :=
  match l with
  | '"' :: t =>
    match takeClass1 (fun c => c ≠ '"') t with
    | some (g, rest) =>
      match rest with
      | '"' :: t₂ => some (g, t₂)
      | _ => none
    | none => none
  | _ => none

/-- Match `\s*\(\s*` after the literal `new`. -/
def matchOpenParen (l : List Char) : Option (List Char) :=
  match skipSpaces l with
  | '(' :: t => some (skipSpaces t)
  | _ => none

/-- Tail of the machine pattern: the five numeric groups after the model. -/
def matchNums (l : List Char) : Option ((String × String × String × String × String) × List Char) :=
  match matchComma l with
  | none => none
  | some l =>
    match takeClass1 Char.isDigit l with
    | none => none
    | some (rx, l) =>
      match matchComma l with
      | none => none
      | some l =>
        match takeClass1 Char.isDigit l with
        | none => none
        | some (ry, l) =>
          match matchComma l with
          | none => none
          | some l =>
            match matchDecimal l with
            | none => none
            | some (dw, l) =>
              match matchComma l with
              | none => none
              | some l =>
                match matchDecimal l with
                | none => none
                | some (dh, l) =>
                  match matchComma l with
                  | none => none
                  | some l =>
                    match matchDecimal l with
                    | none => none
                    | some (mz, l) => some ((⟨rx⟩, ⟨ry⟩, ⟨dw⟩, ⟨dh⟩, ⟨mz⟩), l)

/-- One attempt of the `parse_machines` regex at the head of the input. -/
def matchMachine (l : List Char) : Option (SlaTuple × List Char) :=
  match matchLit "new".data l with
  | none => none
  | some l =>
    match matchOpenParen l with
    | none => none
    | some l =>
      match matchLit "PrinterBrand.".data l with
      | none => none
      | some l =>
        match takeClass1 isWordChar l with
        | none => none
        | some (brand, l) =>
          match matchComma l with
          | none => none
          | some l =>
            match matchQuoted l with
            | none => none
            | some (model, l) =>
              match matchNums l with
              | none => none
              | some ((rx, ry, dw, dh, mz), l) =>
                some (⟨⟨brand⟩, ⟨model⟩, rx, ry, dw, dh, mz⟩, l)

/-- `re.findall` scanning: try the pattern at each position, emit a match and
continue after it, otherwise advance one character. Fuel-indexed. -/
def scanMachines : Nat → List Char → List SlaTuple
  | 0, _ => []
  | _ + 1, [] => []
  | n + 1, c :: t =>
    match matchMachine (c :: t) with
    | some (tup, rest) => tup :: scanMachines n rest
    | none => scanMachines n t

/-- All matches of the machine pattern in a document. -/
def findMachineMatches (s : String) : List SlaTuple :=
  scanMachines (s.data.length + 1) s.data

/-- `extract_sla.BLACKLIST_MODELS`. -/
def BLACKLIST_MODELS : List String := ["custom", "default", "generic", "unknown", "test"]

/-- Record built from one regex match of `parse_machines` (brand, model,
`technology = "SLA"`, rounded volume, no image). -/
def slaRecordOf (t : SlaTuple) : Except Unit Record :=
  match pyFloat t.dispW, pyFloat t.dispH, pyFloat t.machZ with
  | some x, some y, some z =>
    .ok ⟨t.brand, t.model, "SLA", ⟨pyRound2 x, pyRound2 y, pyRound2 z⟩, none, "UVtools"⟩
  | _, _, _ => .error ()

/-- Per-match step of the `parse_machines` loop: blacklist filter,
`seen`-set deduplication, then record construction. -/
def slaStep (st : List Record × List String) (t : SlaTuple) :
    Except Unit (List Record × List String) :=
  if pyLower t.model ∈ BLACKLIST_MODELS then .ok st
  else
    if intra_dedup_key t.brand t.model ∈ st.2 then .ok st
    else
      match slaRecordOf t with
      | .ok r => .ok (st.1 ++ [r], intra_dedup_key t.brand t.model :: st.2)
      | .error e => .error e

/-- `extract_sla.parse_machines`. -/
def parse_machines (cs_content : String) : Except Unit (List Record) :=
  match (findMachineMatches cs_content).foldlM slaStep ([], []) with
  | .ok st => .ok st.1
  | .error e => .error e

/-- `extract_sla.fetch_machine_cs`: a transport failure (network error,
timeout or non-success status, modelled as `none`) degrades to `""`. -/
def fetch_machine_cs (response : Option String) : String := response.getD ""

/-- `extract_sla.extract_sla_printers`: empty content short-circuits to `[]`,
otherwise parse and sort case-insensitively by `(brand, model)`. -/
def extract_sla_printers (response : Option String) : Except Unit (List Record) :=
  let cs_content := fetch_machine_cs response
  if cs_content = "" then .ok []
  else
    match parse_machines cs_content with
    | .ok printers => .ok (sortByKey recSortKey printers)
    | .error e => .error e

/-- `extract_fdm.BLACKLIST_KEYWORDS`. -/
def BLACKLIST_KEYWORDS : List String :=
  ["hotend", "hot end", "all-metal", "nozzle", "plate", "kit", "extruder",
   "sheet", "smooth", "textured", "satin", "cool", "engineering",
   "high temp", "hardened", "chamber", "auxiliary"]

/-- `extract_fdm.is_blacklisted`: any keyword is a substring of the lowered
name. -/
def is_blacklisted (name : String) : Bool :=
  BLACKLIST_KEYWORDS.any (fun kw => decide (List.IsInfix kw.data (pyLower name).data))

/-- Python `s.startswith(p)`. -/
def pyStartsWith (s p : String) : Bool := p.data.isPrefixOf s.data

/-- Tail of the nozzle pattern after the numeric part:
`\s*(mm)?\s*nozzle` case-insensitively, trying the `(mm)` alternative first
as the regex engine does. -/
def nozzleTail (l : List Char) : Option (List Char) :=
  let l₁ := skipSpaces l
  match matchLitCI "mm".data l₁ with
  | some l₂ =>
    match matchLitCI "nozzle".data (skipSpaces l₂) with
    | some r => some r
    | none => matchLitCI "nozzle".data l₁
  | none => matchLitCI "nozzle".data l₁

/-- One attempt of `\s+\d+(\.\d+)?\s*(mm)?\s*nozzle` (IGNORECASE) at the head
of the input, returning the rest after the match. -/
def matchNozzle1 (l : List Char) : Option (List Char) :=
  match takeClass1 isPySpace l with
  | none => none
  | some (_, l₁) =>
    match takeClass1 Char.isDigit l₁ with
    | none => none
    | some (_, l₂) =>
      let withFrac : Option (List Char) :=
        match l₂ with
        | '.' :: t =>
          match takeClass1 Char.isDigit t with
          | some (_, l₃) => nozzleTail l₃
          | none => none
        | _ => none
      match withFrac with
      | some r => some r
      | none => nozzleTail l₂

/-- `re.sub` of the first nozzle pattern with the empty replacement:
delete every non-overlapping match, scanning left to right. Fuel-indexed. -/
def subNozzle1 : Nat → List Char → List Char
  | 0, l => l
  | _ + 1, [] => []
  | n + 1, c :: t =>
    match matchNozzle1 (c :: t) with
    | some rest => subNozzle1 n rest
    | none => c :: subNozzle1 n t

/-- Does some case-insensitive occurrence of `nozzle` in the segment have a
`')'` after it? This is the success condition of `.*nozzle.*\)`. -/
def hasNozzleParen : List Char → Bool
  | [] => false
  | c :: t =>
    ((matchLitCI "nozzle".data (c :: t)).isSome && (List.drop 5 t).contains ')')
      || hasNozzleParen t

/-- Number of characters of the segment consumed by a successful
`.*nozzle.*\)`: everything up to and including the last `')'`. -/
def throughLastParen (seg : List Char) : Nat :=
  seg.length - (seg.reverse.takeWhile (fun c => c ≠ ')')).length

/-- One attempt of `\s*\(.*nozzle.*\)` (IGNORECASE) at the head of the input.
`.` does not cross a newline; the greedy `.*` groups make the match end at
the last `')'` of the newline-free segment whenever some `nozzle` occurrence
has a `')'` after it. -/
def matchNozzle2 (l : List Char) : Option (List Char) :=
  match skipSpaces l with
  | '(' :: t =>
    let seg := t.takeWhile (fun c => c ≠ '\n')
    if hasNozzleParen seg then some (t.drop (throughLastParen seg)) else none
  | _ => none

/-- `re.sub` of the parenthesised nozzle pattern with the empty replacement.
Fuel-indexed. -/
def subNozzle2 : Nat → List Char → List Char
  | 0, l => l
  | _ + 1, [] => []
  | n + 1, c :: t =>
    match matchNozzle2 (c :: t) with
    | some rest => subNozzle2 n rest
    | none => c :: subNozzle2 n t

/-- `extract_fdm.get_base_model_name`: strip the brand prefix
case-insensitively, delete nozzle-qualifier phrases, and strip. -/
def get_base_model_name (name brand : String) : String :=
  let name :=
    if pyStartsWith (pyLower name) (pyLower brand ++ " ") then
      pyStrip ⟨name.data.drop (brand.data.length + 1)⟩
    else name
  let name : String := ⟨subNozzle1 (name.data.length + 1) name.data⟩
  let name : String := ⟨subNozzle2 (name.data.length + 1) name.data⟩
  pyStrip name

/-- Python `file_name.replace(".json", "")`: delete every occurrence of the
substring `.json`, scanning left to right. Fuel-indexed. -/
def dropJsonSub : Nat → List Char → List Char
  | 0, l => l
  | _ + 1, [] => []
  | n + 1, c :: t =>
    if ".json".data.isPrefixOf (c :: t) then dropJsonSub n (List.drop 4 t)
    else c :: dropJsonSub n t

/-- Filename stem used as the last fallback for the display name. -/
def stemOf (file_name : String) : String :=
  ⟨dropJsonSub (file_name.data.length + 1) file_name.data⟩

/-- Raw display name resolution of `extract_fdm_printers` line 192:
`data.get('printer_model', data.get('name', stem))` — presence-based
fallback, an empty present value still wins. -/
def resolveRawName (data : PyDict) (stem : String) : JVal :=
  (jget data "printer_model").getD ((jget data "name").getD (.s stem))

/-- A directory entry for a candidate machine file (name and download URL). -/
structure FileInfo where
  name : String
  download_url : Option String

/-- The network environment the FDM extractor runs against: the brand
listing, the per-brand machine-file listing (with the 404 fallback already
applied), the JSON fetch+parse result per URL, and the image-probe result. -/
structure FdmEnv where
  brands : List String
  machine_files : String → List FileInfo
  parse_machine_json : String → Option PyDict
  find_image_url : String → String → Option String

/-- Loop body of `extract_fdm_printers` for one candidate file: skip on a
missing or empty download URL, on an unparseable fetch, on an empty or
non-printer JSON, on a blacklisted name, or on a duplicate key; reject a
footprint below 10 mm after recording the key; otherwise append the record. -/
def processFile (env : FdmEnv) (brand : String)
    (st : List Record × List String) (fi : FileInfo) :
    Except Unit (List Record × List String) :=
  match fi.download_url with
  | none => .ok st
  | some json_url =>
    if json_url = "" then .ok st
    else
      match env.parse_machine_json json_url with
      | none => .ok st
      | some data =>
        if data.isEmpty then .ok st
        else
          if (jget data "printable_area").isNone && (jget data "printable_height").isNone then .ok st
          else
            match resolveRawName data (stemOf fi.name) with
            | .s raw_name =>
              if is_blacklisted raw_name then .ok st
              else
                if intra_dedup_key brand (get_base_model_name raw_name brand) ∈ st.2 then .ok st
                else
                  match parse_volume data with
                  | .error e => .error e
                  | .ok volume =>
                    if volume.x < 10 then
                      .ok (st.1, intra_dedup_key brand (get_base_model_name raw_name brand) :: st.2)
                    else
                      .ok (st.1 ++
                        [⟨brand, get_base_model_name raw_name brand, "FDM", volume,
                          env.find_image_url brand (get_base_model_name raw_name brand), "OrcaSlicer"⟩],
                        intra_dedup_key brand (get_base_model_name raw_name brand) :: st.2)
            | _ => .error ()

/-- `extract_fdm.extract_fdm_printers` over an abstracted network
environment. -/
def extract_fdm_printers (env : FdmEnv) : Except Unit (List Record) :=
  match env.brands.foldlM
      (fun st brand => (env.machine_files brand).foldlM (processFile env brand) st)
      (([], []) : List Record × List String) with
  | .ok st => .ok st.1
  | .error e => .error e

/-! ### Lemmas about the stable sort -/

theorem insertSorted_perm {α κ : Type} [LinearOrder κ] (k : α → κ) (x : α)
    (l : List α) : List.Perm (insertSorted k x l) (x :: l) := by
  induction l with
  | nil => exact List.Perm.refl _
  | cons y t ih =>
    rw [insertSorted]
    by_cases h : k x ≤ k y
    · rw [if_pos h]
    · rw [if_neg h]
      exact (ih.cons y).trans (List.Perm.swap x y t)

theorem sortByKey_perm {α κ : Type} [LinearOrder κ] (k : α → κ) (l : List α) :
    List.Perm (sortByKey k l) l := by
  induction l with
  | nil => exact List.Perm.refl _
  | cons x t ih => exact (insertSorted_perm k x (sortByKey k t)).trans (ih.cons x)

theorem insertSorted_pairwise {α κ : Type} [LinearOrder κ] (k : α → κ)
    (Q : α → α → Prop) (x : α) (l : List α)
    (hl : l.Pairwise (fun a b => k a < k b ∨ (k a = k b ∧ Q a b)))
    (hx : ∀ y ∈ l, k x = k y → Q x y) :
    (insertSorted k x l).Pairwise (fun a b => k a < k b ∨ (k a = k b ∧ Q a b)) := by
  induction l with
  | nil => simp [insertSorted]
  | cons y t ih =>
    rw [insertSorted]
    rcases List.pairwise_cons.mp hl with ⟨hyt, htp⟩
    by_cases h : k x ≤ k y
    · rw [if_pos h]
      refine List.pairwise_cons.mpr ⟨?_, hl⟩
      intro z hz
      rcases List.mem_cons.mp hz with rfl | hzt
      · rcases lt_or_eq_of_le h with hlt | heq
        · exact Or.inl hlt
        · exact Or.inr ⟨heq, hx z (List.mem_cons_self _ _) heq⟩
      · rcases hyt z hzt with hlt | ⟨heq, _⟩
        · exact Or.inl (lt_of_le_of_lt h hlt)
        · rcases lt_or_eq_of_le h with hlt' | heq'
          · exact Or.inl (heq ▸ hlt')
          · exact Or.inr ⟨heq ▸ heq', hx z (List.mem_cons_of_mem _ hzt) (heq ▸ heq')⟩
    · rw [if_neg h]
      refine List.pairwise_cons.mpr ⟨?_, ?_⟩
      · intro z hz
        rcases List.mem_cons.mp ((insertSorted_perm k x t).mem_iff.mp hz) with rfl | hzt
        · exact Or.inl (not_le.mp h)
        · exact hyt z hzt
      · exact ih htp (fun z hz he => hx z (List.mem_cons_of_mem _ hz) he)

theorem sortByKey_pairwise {α κ : Type} [LinearOrder κ] (k : α → κ)
    (Q : α → α → Prop) (l : List α)
    (h : l.Pairwise (fun a b => k a = k b → Q a b)) :
    (sortByKey k l).Pairwise (fun a b => k a < k b ∨ (k a = k b ∧ Q a b)) := by
  induction l with
  | nil => simp [sortByKey]
  | cons x t ih =>
    rcases List.pairwise_cons.mp h with ⟨hxt, htp⟩
    exact insertSorted_pairwise k Q x (sortByKey k t) (ih htp)
      (fun y hy he => hxt y ((sortByKey_perm k t).mem_iff.mp hy) he)

theorem sortByKey_sorted {α κ : Type} [LinearOrder κ] (k : α → κ) (l : List α) :
    (sortByKey k l).Pairwise (fun a b => k a ≤ k b) := by
  refine (sortByKey_pairwise k (fun _ _ => True) l ?_).imp ?_
  · induction l with
    | nil => exact List.Pairwise.nil
    | cons x t ih => exact List.Pairwise.cons (fun _ _ _ => trivial) ih
  · rintro a b (hlt | ⟨heq, _⟩)
    · exact le_of_lt hlt
    · exact le_of_eq heq

theorem insertSorted_map {α β κ : Type} [LinearOrder κ] (k : β → κ) (f : α → β)
    (x : α) (l : List α) :
    insertSorted k (f x) (l.map f) = (insertSorted (fun a => k (f a)) x l).map f := by
  induction l with
  | nil => rfl
  | cons y t ih =>
    simp only [List.map_cons, insertSorted]
    by_cases h : k (f x) ≤ k (f y)
    · rw [if_pos h, if_pos h, List.map_cons, List.map_cons]
    · rw [if_neg h, if_neg h, List.map_cons, ih]

theorem sortByKey_map {α β κ : Type} [LinearOrder κ] (k : β → κ) (f : α → β)
    (l : List α) :
    sortByKey k (l.map f) = (sortByKey (fun a => k (f a)) l).map f := by
  induction l with
  | nil => rfl
  | cons x t ih =>
    show insertSorted k (f x) (sortByKey k (t.map f)) = _
    rw [ih]
    exact insertSorted_map k f x (sortByKey (fun a => k (f a)) t)

/-! ### Lemmas about the merge dictionary -/

theorem dinsert_mem {m : List (String × Record)} {k : String} {v : Record}
    {p : String × Record} (h : p ∈ dinsert m k v) : p ∈ m ∨ p = (k, v) := by
  induction m with
  | nil => simpa [dinsert] using h
  | cons q t ih =>
    rw [dinsert] at h
    by_cases hk : q.1 = k
    · rw [if_pos hk] at h
      rcases List.mem_cons.mp h with rfl | ht
      · exact Or.inr rfl
      · exact Or.inl (List.mem_cons_of_mem _ ht)
    · rw [if_neg hk] at h
      rcases List.mem_cons.mp h with rfl | ht
      · exact Or.inl (List.mem_cons_self _ _)
      · rcases ih ht with h' | h'
        · exact Or.inl (List.mem_cons_of_mem _ h')
        · exact Or.inr h'

theorem dinsert_of_not_mem {m : List (String × Record)} {k : String}
    (v : Record) (h : k ∉ dkeys m) : dinsert m k v = m ++ [(k, v)] := by
  induction m with
  | nil => rfl
  | cons q t ih =>
    have hq : q.1 ≠ k := fun he => h (by simp [dkeys, he])
    have ht : k ∉ dkeys t := fun he => h (by simp [dkeys] at he ⊢; exact Or.inr he)
    rw [dinsert, if_neg hq, ih ht, List.cons_append]

theorem dkeys_dinsert_of_mem {m : List (String × Record)} {k : String}
    (v : Record) (h : k ∈ dkeys m) : dkeys (dinsert m k v) = dkeys m := by
  induction m with
  | nil => simp [dkeys] at h
  | cons q t ih =>
    by_cases hk : q.1 = k
    · rw [dinsert, if_pos hk]
      simp [dkeys, hk]
    · have ht : k ∈ dkeys t := by
        rcases (by simpa [dkeys] using h : k = q.1 ∨ k ∈ dkeys t) with he | ht
        · exact absurd he.symm hk
        · exact ht
      rw [dinsert, if_neg hk]
      simp only [dkeys, List.map_cons]
      rw [show List.map Prod.fst (dinsert t k v) = dkeys (dinsert t k v) from rfl, ih ht]
      rfl

theorem mem_dkeys_dinsert_self (m : List (String × Record)) (k : String)
    (v : Record) : k ∈ dkeys (dinsert m k v) := by
  induction m with
  | nil => simp [dinsert, dkeys]
  | cons q t ih =>
    by_cases hk : q.1 = k
    · rw [dinsert, if_pos hk]; simp [dkeys]
    · rw [dinsert, if_neg hk]
      simpa [dkeys] using Or.inr ih

theorem mem_dkeys_dinsert_of_mem {m : List (String × Record)} {k' : String}
    (k : String) (v : Record) (h : k' ∈ dkeys m) :
    k' ∈ dkeys (dinsert m k v) := by
  induction m with
  | nil => simp [dkeys] at h
  | cons q t ih =>
    rcases (by simpa [dkeys] using h : k' = q.1 ∨ k' ∈ dkeys t) with he | ht
    · by_cases hk : q.1 = k
      · rw [dinsert, if_pos hk]; simp [dkeys, he, hk]
      · rw [dinsert, if_neg hk]; simp [dkeys, he]
    · by_cases hk : q.1 = k
      · rw [dinsert, if_pos hk]
        simpa [dkeys] using Or.inr ht
      · rw [dinsert, if_neg hk]
        simpa [dkeys] using Or.inr (ih ht)

theorem dkeys_nodup_dinsert {m : List (String × Record)} {k : String}
    (v : Record) (h : (dkeys m).Nodup) : (dkeys (dinsert m k v)).Nodup := by
  by_cases hk : k ∈ dkeys m
  · rw [dkeys_dinsert_of_mem v hk]; exact h
  · rw [dinsert_of_not_mem v hk]
    simp only [dkeys, List.map_append, List.map_cons, List.map_nil]
    rw [List.nodup_append]
    refine ⟨h, List.nodup_singleton _, fun a ha hb => ?_⟩
    exact absurd (List.mem_singleton.mp hb ▸ ha) hk

theorem foldl_dinsert_mem (keyf : Record → String) (l : List Record)
    (m : List (String × Record)) (p : String × Record)
    (h : p ∈ l.foldl (fun m r => dinsert m (keyf r) r) m) :
    p ∈ m ∨ ∃ r ∈ l, p = (keyf r, r) := by
  induction l generalizing m with
  | nil => exact Or.inl h
  | cons r t ih =>
    rcases ih (dinsert m (keyf r) r) h with h' | ⟨r', hr', he⟩
    · rcases dinsert_mem h' with h'' | h''
      · exact Or.inl h''
      · exact Or.inr ⟨r, List.mem_cons_self _ _, h''⟩
    · exact Or.inr ⟨r', List.mem_cons_of_mem _ hr', he⟩

theorem foldl_dinsert_nodup (keyf : Record → String) (l : List Record)
    (m : List (String × Record)) (h : (dkeys m).Nodup) :
    (dkeys (l.foldl (fun m r => dinsert m (keyf r) r) m)).Nodup := by
  induction l generalizing m with
  | nil => exact h
  | cons r t ih => exact ih _ (dkeys_nodup_dinsert r h)

theorem foldl_dinsert_key_preserved (keyf : Record → String) (l : List Record)
    (m : List (String × Record)) (k : String) (h : k ∈ dkeys m) :
    k ∈ dkeys (l.foldl (fun m r => dinsert m (keyf r) r) m) := by
  induction l generalizing m with
  | nil => exact h
  | cons r t ih => exact ih _ (mem_dkeys_dinsert_of_mem _ _ h)

theorem foldl_dinsert_key_mem (keyf : Record → String) (l : List Record)
    (m : List (String × Record)) (r : Record) (hr : r ∈ l) :
    keyf r ∈ dkeys (l.foldl (fun m r => dinsert m (keyf r) r) m) := by
  induction l generalizing m with
  | nil => simp at hr
  | cons a t ih =>
    rcases List.mem_cons.mp hr with rfl | ht
    · exact foldl_dinsert_key_preserved keyf t _ _ (mem_dkeys_dinsert_self m (keyf r) r)
    · exact ih _ ht

theorem foldl_dinsert_append (keyf : Record → String) (l : List Record)
    (m : List (String × Record)) (hnd : (l.map keyf).Nodup)
    (hdisj : ∀ r ∈ l, keyf r ∉ dkeys m) :
    l.foldl (fun m r => dinsert m (keyf r) r) m =
      m ++ l.map (fun r => (keyf r, r)) := by
  induction l generalizing m with
  | nil => simp
  | cons r t ih =>
    have h1 : dinsert m (keyf r) r = m ++ [(keyf r, r)] :=
      dinsert_of_not_mem r (hdisj r (List.mem_cons_self _ _))
    have hnd' : (t.map keyf).Nodup := (List.nodup_cons.mp (by simpa using hnd)).2
    have hhead : keyf r ∉ t.map keyf := (List.nodup_cons.mp (by simpa using hnd)).1
    have hdisj' : ∀ u ∈ t, keyf u ∉ dkeys (m ++ [(keyf r, r)]) := by
      intro u hu hmem
      have : dkeys (m ++ [(keyf r, r)]) = dkeys m ++ [keyf r] := by
        simp [dkeys]
      rw [this] at hmem
      rcases List.mem_append.mp hmem with h' | h'
      · exact hdisj u (List.mem_cons_of_mem _ hu) h'
      · exact hhead (List.mem_singleton.mp h' ▸ List.mem_map_of_mem keyf hu)
    show (t.foldl (fun m r => dinsert m (keyf r) r) (dinsert m (keyf r) r)) = _
    rw [h1, ih _ hnd' hdisj', List.append_assoc]
    rfl

/-! ### Structure of the merge keys -/

theorem string_ext {s t : String} (h : s.data = t.data) : s = t := by
  cases s; cases t; exact congrArg String.mk h

theorem fdm_key_ne_sla_key (a b : String) : a ++ "|fdm" ≠ b ++ "|sla" := by
  intro h
  have hd : a.data ++ "|fdm".data = b.data ++ "|sla".data := by
    rw [← String.data_append, ← String.data_append, h]
  have := (List.append_inj' hd rfl).2
  simp at this

theorem append_suffix_cancel {a b : String} (suf : String)
    (h : a ++ suf = b ++ suf) : a = b := by
  have hd : a.data ++ suf.data = b.data ++ suf.data := by
    rw [← String.data_append, ← String.data_append, h]
  exact string_ext (List.append_cancel_right hd)

theorem normalize_key_eq_of_lower {b₁ m₁ b₂ m₂ : String}
    (h₁ : pyLower b₁ = pyLower b₂) (h₂ : pyLower m₁ = pyLower m₂) :
    normalize_key b₁ m₁ = normalize_key b₂ m₂ := by
  unfold normalize_key
  rw [h₁, h₂]

theorem intra_key_eq_of_lower {b₁ m₁ b₂ m₂ : String}
    (h₁ : pyLower b₁ = pyLower b₂) (h₂ : pyLower m₁ = pyLower m₂) :
    intra_dedup_key b₁ m₁ = intra_dedup_key b₂ m₂ := by
  unfold intra_dedup_key
  rw [h₁, h₂]

theorem recSortKey_eq_iff {r r' : Record} :
    recSortKey r = recSortKey r' ↔
      pyLower r.brand = pyLower r'.brand ∧ pyLower r.model = pyLower r'.model := by
  constructor
  · intro h
    have h' := toLex.injective h
    exact ⟨string_ext (congrArg Prod.fst h'), string_ext (congrArg Prod.snd h')⟩
  · rintro ⟨h₁, h₂⟩
    unfold recSortKey
    rw [h₁, h₂]

/-- Every entry of the merged dictionary is an FDM-list record under its FDM
key or an SLA-list record under its SLA key. -/
theorem mergeDict_mem (fdm sla : List Record) (p : String × Record)
    (h : p ∈ mergeDict fdm sla) :
    (∃ r ∈ fdm, p = (fdm_tech_key r, r)) ∨ (∃ r ∈ sla, p = (sla_tech_key r, r)) := by
  rcases foldl_dinsert_mem sla_tech_key sla _ p h with h' | h'
  · rcases foldl_dinsert_mem fdm_tech_key fdm _ p h' with h'' | h''
    · simp at h''
    · exact Or.inl h''
  · exact Or.inr h'

/-- The merged dictionary has duplicate-free keys. -/
theorem mergeDict_nodup (fdm sla : List Record) :
    (dkeys (mergeDict fdm sla)).Nodup :=
  foldl_dinsert_nodup sla_tech_key sla _
    (foldl_dinsert_nodup fdm_tech_key fdm [] (by simp [dkeys]))

/-! ### Claim C7 -/

/-- C7: if the upstream Machine.cs document cannot be fetched at all
(transport error, timeout or non-success status, modelled by a `none` fetch
result), `extract_sla_printers` returns an empty list rather than raising or
failing the build. -/
theorem C7_fetch_failure_empty_list : extract_sla_printers none = .ok [] := rfl

/-! ### Claim C4 -/

/-- C4 counterexample: with `printer_model` present but empty and `name`
set to `"X"`, the claimed first-non-empty chain would resolve `"X"`, but the
code resolves the empty string — `dict.get` falls through on absence, not on
emptiness. -/
theorem C4_counterexample :
    resolveRawName [("printer_model", JVal.s ""), ("name", JVal.s "X")] "stem" =
      JVal.s "" ∧ JVal.s "" ≠ JVal.s "X" := by
  refine ⟨rfl, ?_⟩
  intro h
  exact absurd (congrArg (fun v => match v with | JVal.s s => s | _ => "") h) (by decide)

/-- C4 (amended): the raw display name is resolved by a presence-based
priority chain — the `printer_model` value if the key is present (even if
empty), otherwise the `name` value if that key is present, otherwise the
filename stem. -/
theorem C4_raw_name_priority (d : PyDict) (stem : String) :
    (∀ v, jget d "printer_model" = some v → resolveRawName d stem = v) ∧
    (jget d "printer_model" = none →
      ∀ v, jget d "name" = some v → resolveRawName d stem = v) ∧
    (jget d "printer_model" = none → jget d "name" = none →
      resolveRawName d stem = JVal.s stem) := by
  refine ⟨?_, ?_, ?_⟩
  · intro v hv
    simp [resolveRawName, hv]
  · intro h1 v hv
    simp [resolveRawName, h1, hv]
  · intro h1 h2
    simp [resolveRawName, h1, h2]

/-- C4 witness: the amended chain evaluated on a concrete object with only a
`name` field. -/
theorem C4_raw_name_priority_witness :
    jget [("name", JVal.s "N")] "printer_model" = none ∧
    resolveRawName [("name", JVal.s "N")] "Y" = JVal.s "N" :=
  ⟨rfl, (C4_raw_name_priority [("name", JVal.s "N")] "Y").2.1 rfl _ rfl⟩


/-! ### Claims C5 and C10 -/

/-- C5 counterexample: `["0x0","250x210"]` is a sequence of parseable
`WxH`-style coordinate strings, but `parse_volume` does not compute the
claimed bounding-box span `x = 250`; the polygon branch requires at least 4
entries, so the footprint silently falls back to the absent scalar fields. -/
theorem C5_counterexample :
    parse_volume [("printable_area", JVal.arr [JVal.s "0x0", JVal.s "250x210"]),
                  ("printable_height", JVal.n 100)] =
      .ok ⟨0, 0, 100⟩ ∧ (0 : Rat) ≠ 250 :=
  ⟨rfl, by norm_num⟩

/-- Evaluation helper: `pyRound2` at a rational whose hundredfold is the
integer `n`. -/
theorem pyRound2_int (q : ℚ) (n : ℤ) (h : q * 100 = (n : ℚ)) :
    pyRound2 q = (n : ℚ) / 100 := by
  unfold pyRound2
  rw [h, round_intCast]

/-- C5 (amended): when `printable_area` is a list of at least 4 entries
whose collected coordinate lists are nonempty and whose rounded x-span is
nonzero, `parse_volume` returns the bounding-box spans `max - min` rounded
to 2 decimals for x and y; in particular the polygon
`["0x0","250x0","250x210","0x210"]` yields `x = 250`, `y = 210` with `z`
taken independently from the height field. -/
theorem C5_polygon_bounding_box :
    (∀ (d : PyDict) (l : List JVal) (x0 y0 : Rat) (xt yt : List Rat),
      jget d "printable_area" = some (.arr l) → 4 ≤ l.length →
      polyAccum l = (x0 :: xt, y0 :: yt) →
      pyRound2 ((xt.foldl max x0) - (xt.foldl min x0)) ≠ 0 →
      ∀ v, parse_volume d = .ok v →
        v.x = pyRound2 ((xt.foldl max x0) - (xt.foldl min x0)) ∧
        v.y = pyRound2 ((yt.foldl max y0) - (yt.foldl min y0))) ∧
    (∀ q : Rat,
      parse_volume [("printable_area",
          JVal.arr [JVal.s "0x0", JVal.s "250x0", JVal.s "250x210", JVal.s "0x210"]),
        ("printable_height", JVal.n q)] = .ok ⟨250, 210, q⟩) := by
  constructor
  · intro d l x0 y0 xt yt harea hlen hpoly hne v hv
    have hm : method1 d =
        (pyRound2 ((xt.foldl max x0) - (xt.foldl min x0)),
         pyRound2 ((yt.foldl max y0) - (yt.foldl min y0))) := by
      unfold method1
      rw [harea]
      simp only [method1Area]
      rw [if_pos hlen, hpoly]
    have hfp : footprint d =
        .ok (pyRound2 ((xt.foldl max x0) - (xt.foldl min x0)),
             pyRound2 ((yt.foldl max y0) - (yt.foldl min y0))) := by
      unfold footprint
      rw [hm]
      exact if_neg hne
    rw [parse_volume, hfp] at hv
    cases hh : heightOf d with
    | ok c =>
      rw [hh] at hv
      simp only [combineVol] at hv
      rcases Except.ok.inj hv with rfl
      exact ⟨rfl, rfl⟩
    | error e =>
      rw [hh] at hv
      simp only [combineVol] at hv
      exact Except.noConfusion hv
  · intro q
    have hm0 : method1 [("printable_area",
          JVal.arr [JVal.s "0x0", JVal.s "250x0", JVal.s "250x210", JVal.s "0x210"]),
        ("printable_height", JVal.n q)] =
        (pyRound2 (List.foldl max ((1:ℚ) * ((0:ℕ):ℚ))
            [(1:ℚ) * ((250:ℕ):ℚ), (1:ℚ) * ((250:ℕ):ℚ), (1:ℚ) * ((0:ℕ):ℚ)] -
          List.foldl min ((1:ℚ) * ((0:ℕ):ℚ))
            [(1:ℚ) * ((250:ℕ):ℚ), (1:ℚ) * ((250:ℕ):ℚ), (1:ℚ) * ((0:ℕ):ℚ)]),
         pyRound2 (List.foldl max ((1:ℚ) * ((0:ℕ):ℚ))
            [(1:ℚ) * ((0:ℕ):ℚ), (1:ℚ) * ((210:ℕ):ℚ), (1:ℚ) * ((210:ℕ):ℚ)] -
          List.foldl min ((1:ℚ) * ((0:ℕ):ℚ))
            [(1:ℚ) * ((0:ℕ):ℚ), (1:ℚ) * ((210:ℕ):ℚ), (1:ℚ) * ((210:ℕ):ℚ)])) := rfl
    have hm : method1 [("printable_area",
          JVal.arr [JVal.s "0x0", JVal.s "250x0", JVal.s "250x210", JVal.s "0x210"]),
        ("printable_height", JVal.n q)] = ((250 : ℚ), (210 : ℚ)) := by
      rw [hm0,
        pyRound2_int _ 25000 (by norm_num [List.foldl, max_def, min_def]),
        pyRound2_int _ 21000 (by norm_num [List.foldl, max_def, min_def])]
      norm_num
    show combineVol (footprint _) (heightOf _) = _
    have hfp : footprint [("printable_area",
          JVal.arr [JVal.s "0x0", JVal.s "250x0", JVal.s "250x210", JVal.s "0x210"]),
        ("printable_height", JVal.n q)] = .ok ((250 : ℚ), (210 : ℚ)) := by
      unfold footprint
      rw [hm]
      rw [if_neg (by norm_num)]
    rw [hfp]
    rfl

/-- C5 witness: the general bounding-box clause evaluated on the concrete
4-point polygon with height 220. -/
theorem C5_polygon_bounding_box_witness :
    parse_volume [("printable_area",
        JVal.arr [JVal.s "0x0", JVal.s "250x0", JVal.s "250x210", JVal.s "0x210"]),
      ("printable_height", JVal.n 220)] = .ok ⟨250, 210, 220⟩ ∧
    (⟨250, 210, 220⟩ : Volume).x =
      pyRound2 (List.foldl max ((1:ℚ) * ((0:ℕ):ℚ))
          [(1:ℚ) * ((250:ℕ):ℚ), (1:ℚ) * ((250:ℕ):ℚ), (1:ℚ) * ((0:ℕ):ℚ)] -
        List.foldl min ((1:ℚ) * ((0:ℕ):ℚ))
          [(1:ℚ) * ((250:ℕ):ℚ), (1:ℚ) * ((250:ℕ):ℚ), (1:ℚ) * ((0:ℕ):ℚ)]) := by
  have happ := C5_polygon_bounding_box.1
    [("printable_area",
        JVal.arr [JVal.s "0x0", JVal.s "250x0", JVal.s "250x210", JVal.s "0x210"]),
      ("printable_height", JVal.n 220)]
    [JVal.s "0x0", JVal.s "250x0", JVal.s "250x210", JVal.s "0x210"]
    ((1:ℚ) * ((0:ℕ):ℚ)) ((1:ℚ) * ((0:ℕ):ℚ))
    [(1:ℚ) * ((250:ℕ):ℚ), (1:ℚ) * ((250:ℕ):ℚ), (1:ℚ) * ((0:ℕ):ℚ)]
    [(1:ℚ) * ((0:ℕ):ℚ), (1:ℚ) * ((210:ℕ):ℚ), (1:ℚ) * ((210:ℕ):ℚ)]
    rfl (by norm_num) rfl
    (by rw [pyRound2_int _ 25000 (by norm_num [List.foldl, max_def, min_def])]; norm_num)
    ⟨250, 210, 220⟩ (C5_polygon_bounding_box.2 220)
  exact ⟨C5_polygon_bounding_box.2 220, happ.1⟩

/-- C10: the polygon-based footprint is attempted only for a list of at
least 4 entries with at least one parsed coordinate on each axis; for a
shorter polygon list, or one whose entries yield no parsed coordinates, the
footprint silently falls back to the `bed_width`/`bed_depth` scalars, which
default to 0 when absent. -/
theorem C10_polygon_guard_fallback (d : PyDict) (l : List JVal)
    (harea : jget d "printable_area" = some (.arr l))
    (hbad : l.length < 4 ∨ (polyAccum l).1 = [] ∨ (polyAccum l).2 = []) :
    ∀ v, parse_volume d = .ok v →
      pyFloatJ ((jget d "bed_width").getD (.n 0)) = some v.x ∧
      pyFloatJ ((jget d "bed_depth").getD (.n 0)) = some v.y := by
  intro v hv
  have hm : method1 d = (0, 0) := by
    unfold method1
    rw [harea]
    simp only [method1Area]
    rcases hbad with hlen | hxs | hys
    · rw [if_neg (by omega)]
    · rcases hpa : polyAccum l with ⟨xs, ys⟩
      rw [hpa] at hxs
      simp only at hxs
      subst hxs
      split
      · rfl
      · rfl
    · rcases hpa : polyAccum l with ⟨xs, ys⟩
      rw [hpa] at hys
      simp only at hys
      subst hys
      rcases xs with _ | ⟨a, xs⟩
      · split
        · rfl
        · rfl
      · split
        · rfl
        · rfl
  have hfp : footprint d =
      bedFallback (pyFloatJ ((jget d "bed_width").getD (.n 0)))
        (pyFloatJ ((jget d "bed_depth").getD (.n 0))) := by
    unfold footprint
    rw [hm]
    exact if_pos rfl
  rw [parse_volume, hfp] at hv
  cases hbx : pyFloatJ ((jget d "bed_width").getD (.n 0)) with
  | none =>
    rw [hbx] at hv
    simp only [bedFallback, combineVol] at hv
    exact Except.noConfusion hv
  | some bx =>
    cases hbd : pyFloatJ ((jget d "bed_depth").getD (.n 0)) with
    | none =>
      rw [hbx, hbd] at hv
      simp only [bedFallback, combineVol] at hv
      exact Except.noConfusion hv
    | some bd =>
      rw [hbx, hbd] at hv
      simp only [bedFallback] at hv
      cases hh : heightOf d with
      | ok c =>
        rw [hh] at hv
        simp only [combineVol] at hv
        rcases Except.ok.inj hv with rfl
        exact ⟨rfl, rfl⟩
      | error e =>
        rw [hh] at hv
        simp only [combineVol] at hv
        exact Except.noConfusion hv

/-- C10 witness: a one-point polygon with concrete scalar bed fields. -/
theorem C10_polygon_guard_fallback_witness :
    parse_volume [("printable_area", JVal.arr [JVal.s "0x0"]),
                  ("bed_width", JVal.n 220), ("bed_depth", JVal.n 210)] =
      .ok ⟨220, 210, 0⟩ ∧
    pyFloatJ ((jget [("printable_area", JVal.arr [JVal.s "0x0"]),
                  ("bed_width", JVal.n 220), ("bed_depth", JVal.n 210)] "bed_width").getD (.n 0)) =
      some ((⟨220, 210, 0⟩ : Volume).x) := by
  refine ⟨rfl, ?_⟩
  exact (C10_polygon_guard_fallback
    [("printable_area", JVal.arr [JVal.s "0x0"]),
     ("bed_width", JVal.n 220), ("bed_depth", JVal.n 210)] [JVal.s "0x0"]
    rfl (Or.inl (by norm_num)) ⟨220, 210, 0⟩ rfl).1

/-! ### Claim C3 -/

/-- C3 counterexample: brand hyphenation is not collapsed by
`normalize_key`, runs of whitespace are not collapsed either, and the
extractors deduplicate on a different (plain-lowercased) key space than the
merge step. -/
theorem C3_counterexample :
    normalize_key "ab" "m" ≠ normalize_key "a-b" "m" ∧
    normalize_key "x" "a b" ≠ normalize_key "x" "a  b" ∧
    intra_dedup_key "A" "B C" ≠ normalize_key "A" "B C" := by
  refine ⟨?_, ?_, ?_⟩ <;> decide

/-- C3 (amended): both the merge key and the intra-extractor key are
case-folded, so case variants collide; the merge key maps spaces (and, in
the model component, hyphens) to underscores, so a model hyphen/space
variant collides; but the extractors deduplicate on the plain lowercased
`brand|model` string, which differs from the merge key space. -/
theorem C3_key_normalization :
    (∀ b₁ m₁ b₂ m₂ : String, pyLower b₁ = pyLower b₂ → pyLower m₁ = pyLower m₂ →
      normalize_key b₁ m₁ = normalize_key b₂ m₂ ∧
      intra_dedup_key b₁ m₁ = intra_dedup_key b₂ m₂) ∧
    normalize_key "Brand" "Ender-3" = normalize_key "brand" "Ender 3" ∧
    (∃ b m : String, intra_dedup_key b m ≠ normalize_key b m) := by
  refine ⟨fun b₁ m₁ b₂ m₂ h₁ h₂ =>
    ⟨normalize_key_eq_of_lower h₁ h₂, intra_key_eq_of_lower h₁ h₂⟩, by decide,
    ⟨"q w", "e", by decide⟩⟩

/-- C3 witness: case-fold invariance of both key spaces at a concrete
case-variant pair. -/
theorem C3_key_normalization_witness :
    pyLower "ABC" = pyLower "abc" ∧
    normalize_key "ABC" "M-1" = normalize_key "abc" "m-1" ∧
    intra_dedup_key "ABC" "M-1" = intra_dedup_key "abc" "m-1" := by
  have h := C3_key_normalization.1 "ABC" "M-1" "abc" "m-1" (by decide) (by decide)
  exact ⟨by decide, h.1, h.2⟩

/-! ### Claim C2 -/

/-- C2 counterexample: the merge key derives its technology component from
which input list a record arrived in, not from the record's stored
`technology` field, so two records that both carry `technology = "SLA"` but
arrive through the two different lists are both kept, and the output
contains two records sharing the normalized (brand, model, technology)
triple. -/
theorem C2_counterexample :
    merge_printers [⟨"A", "B", "SLA", ⟨20, 20, 20⟩, none, "OrcaSlicer"⟩]
        [⟨"A", "B", "SLA", ⟨30, 30, 30⟩, none, "UVtools"⟩] =
      [⟨"A", "B", "SLA", ⟨20, 20, 20⟩, none, "OrcaSlicer"⟩,
       ⟨"A", "B", "SLA", ⟨30, 30, 30⟩, none, "UVtools"⟩] ∧
    (⟨"A", "B", "SLA", ⟨20, 20, 20⟩, none, "OrcaSlicer"⟩ : Record) ≠
      ⟨"A", "B", "SLA", ⟨30, 30, 30⟩, none, "UVtools"⟩ ∧
    normalize_key "A" "B" = normalize_key "A" "B" ∧
    ("SLA" : String) = "SLA" := by
  refine ⟨rfl, fun h => absurd (congrArg Record.source h) (by decide), rfl, rfl⟩

/-- C2 (amended): provided every record of the FDM input carries
`technology = "FDM"` and every record of the SLA input carries
`technology = "SLA"` — as the two extractors guarantee — no two records of
the merged output share the normalized (brand, model, technology) triple. -/
theorem C2_dedup_invariant (fdm sla : List Record)
    (hf : ∀ r ∈ fdm, r.technology = "FDM")
    (hs : ∀ r ∈ sla, r.technology = "SLA") :
    (merge_printers fdm sla).Pairwise (fun a b =>
      ¬(normalize_key a.brand a.model = normalize_key b.brand b.model ∧
        a.technology = b.technology)) := by
  have hkeys : (mergeDict fdm sla).Pairwise (fun p q => p.1 ≠ q.1) :=
    List.pairwise_map.mp (mergeDict_nodup fdm sla)
  have hdict : (mergeDict fdm sla).Pairwise (fun p q =>
      ¬(normalize_key p.2.brand p.2.model = normalize_key q.2.brand q.2.model ∧
        p.2.technology = q.2.technology)) := by
    refine hkeys.imp_of_mem ?_
    intro p q hp hq hne ⟨hnk, htech⟩
    rcases mergeDict_mem fdm sla p hp with ⟨r, hr, rfl⟩ | ⟨r, hr, rfl⟩ <;>
      rcases mergeDict_mem fdm sla q hq with ⟨u, hu, rfl⟩ | ⟨u, hu, rfl⟩ <;>
      simp only at hnk htech hne
    · exact hne (by unfold fdm_tech_key; rw [hnk])
    · exact absurd ((hf r hr).symm.trans (htech.trans (hs u hu))) (by decide)
    · exact absurd ((hs r hr).symm.trans (htech.trans (hf u hu))) (by decide)
    · exact hne (by unfold sla_tech_key; rw [hnk])
  have hvals : ((mergeDict fdm sla).map Prod.snd).Pairwise (fun a b =>
      ¬(normalize_key a.brand a.model = normalize_key b.brand b.model ∧
        a.technology = b.technology)) :=
    List.pairwise_map.mpr hdict
  have hsym : Symmetric (fun a b : Record =>
      ¬(normalize_key a.brand a.model = normalize_key b.brand b.model ∧
        a.technology = b.technology)) := by
    intro a b h ⟨h₁, h₂⟩
    exact h ⟨h₁.symm, h₂.symm⟩
  exact ((sortByKey_perm recSortKey ((mergeDict fdm sla).map Prod.snd)).pairwise_iff
    @hsym).mpr hvals

/-- C2 witness: the dedup invariant on a concrete well-formed input pair. -/
theorem C2_dedup_invariant_witness :
    (merge_printers [⟨"A", "B", "FDM", ⟨20, 20, 20⟩, none, "OrcaSlicer"⟩]
        [⟨"A", "B", "SLA", ⟨30, 30, 30⟩, none, "UVtools"⟩]).Pairwise (fun a b =>
      ¬(normalize_key a.brand a.model = normalize_key b.brand b.model ∧
        a.technology = b.technology)) :=
  C2_dedup_invariant
    [⟨"A", "B", "FDM", ⟨20, 20, 20⟩, none, "OrcaSlicer"⟩]
    [⟨"A", "B", "SLA", ⟨30, 30, 30⟩, none, "UVtools"⟩]
    (by intro r hr; rcases List.mem_singleton.mp hr with rfl; rfl)
    (by intro r hr; rcases List.mem_singleton.mp hr with rfl; rfl)

/-! ### Claim C9 -/

theorem two_le_length_of_mem_ne {α : Type} {a b : α} {l : List α}
    (ha : a ∈ l) (hb : b ∈ l) (hne : a ≠ b) : 2 ≤ l.length := by
  match l with
  | [] => exact absurd ha (List.not_mem_nil a)
  | [x] =>
    rcases List.mem_singleton.mp ha with rfl
    rcases List.mem_singleton.mp hb with rfl
    exact absurd rfl hne
  | x :: y :: t => simp only [List.length_cons]; omega

/-- Both technology-suffixed keys of a normalized (brand, model) pair that
occurs in both lists are present in the merged dictionary. -/
theorem mergeDict_both_keys (fdm sla : List Record) (k : String)
    (hkf : ∃ r ∈ fdm, normalize_key r.brand r.model = k)
    (hks : ∃ r ∈ sla, normalize_key r.brand r.model = k) :
    (k ++ "|fdm") ∈ dkeys (mergeDict fdm sla) ∧
    (k ++ "|sla") ∈ dkeys (mergeDict fdm sla) := by
  obtain ⟨rf, hrf, hkrf⟩ := hkf
  obtain ⟨rs, hrs, hkrs⟩ := hks
  constructor
  · have h1 : fdm_tech_key rf ∈ dkeys (fdm.foldl (fun m p => dinsert m (fdm_tech_key p) p) []) :=
      foldl_dinsert_key_mem fdm_tech_key fdm [] rf hrf
    have h2 := foldl_dinsert_key_preserved sla_tech_key sla _ _ h1
    rw [show fdm_tech_key rf = k ++ "|fdm" by unfold fdm_tech_key; rw [hkrf]] at h2
    exact h2
  · have h1 : sla_tech_key rs ∈ dkeys (mergeDict fdm sla) :=
      foldl_dinsert_key_mem sla_tech_key sla _ rs hrs
    rw [show sla_tech_key rs = k ++ "|sla" by unfold sla_tech_key; rw [hkrs]] at h1
    exact h1

/-- C9: `merge_printers` derives the technology component of the
deduplication key from which input list a record arrived in, never from the
record's own `technology` field; consequently a normalized (brand, model)
pair present in both input lists keeps both copies in the output, whatever
technology values the records themselves store. -/
theorem C9_cross_list_retention (fdm sla : List Record) (k : String)
    (hkf : ∃ r ∈ fdm, normalize_key r.brand r.model = k)
    (hks : ∃ r ∈ sla, normalize_key r.brand r.model = k) :
    2 ≤ ((merge_printers fdm sla).filter
      (fun r => decide (normalize_key r.brand r.model = k))).length := by
  obtain ⟨hf, hs⟩ := mergeDict_both_keys fdm sla k hkf hks
  obtain ⟨p₁, hp₁, hp₁k⟩ := List.mem_map.mp hf
  obtain ⟨p₂, hp₂, hp₂k⟩ := List.mem_map.mp hs
  have hv₁ : normalize_key p₁.2.brand p₁.2.model = k := by
    rcases mergeDict_mem fdm sla p₁ hp₁ with ⟨r, _, rfl⟩ | ⟨r, _, rfl⟩
    · exact append_suffix_cancel "|fdm" hp₁k
    · exact absurd hp₁k.symm (fdm_key_ne_sla_key k (normalize_key r.brand r.model))
  have hv₂ : normalize_key p₂.2.brand p₂.2.model = k := by
    rcases mergeDict_mem fdm sla p₂ hp₂ with ⟨r, _, rfl⟩ | ⟨r, _, rfl⟩
    · exact absurd hp₂k (fdm_key_ne_sla_key (normalize_key r.brand r.model) k)
    · exact append_suffix_cancel "|sla" hp₂k
  have hpne : p₁ ≠ p₂ := by
    intro h
    rw [h, hp₂k] at hp₁k
    exact fdm_key_ne_sla_key k k hp₁k.symm
  have hfilter : ∀ p ∈ mergeDict fdm sla, normalize_key p.2.brand p.2.model = k →
      p ∈ (mergeDict fdm sla).filter (fun p => decide (normalize_key p.2.brand p.2.model = k)) := by
    intro p hp hk
    exact List.mem_filter.mpr ⟨hp, by rw [hk]; exact decide_eq_true rfl⟩
  have hlen : 2 ≤ ((mergeDict fdm sla).filter
      (fun p => decide (normalize_key p.2.brand p.2.model = k))).length :=
    two_le_length_of_mem_ne (hfilter p₁ hp₁ hv₁) (hfilter p₂ hp₂ hv₂) hpne
  have hperm := ((sortByKey_perm recSortKey ((mergeDict fdm sla).map Prod.snd)).filter
    (fun r => decide (normalize_key r.brand r.model = k))).length_eq
  unfold merge_printers
  rw [hperm, List.filter_map]
  rw [List.length_map]
  exact hlen

/-- C9 witness: a brand/model pair fed through both lists with arbitrary
technology fields is retained twice. -/
theorem C9_cross_list_retention_witness :
    2 ≤ ((merge_printers [⟨"A", "B", "X1", ⟨20, 20, 20⟩, none, "OrcaSlicer"⟩]
        [⟨"A", "B", "X2", ⟨30, 30, 30⟩, none, "UVtools"⟩]).filter
      (fun r => decide (normalize_key r.brand r.model = normalize_key "A" "B"))).length :=
  C9_cross_list_retention
    [⟨"A", "B", "X1", ⟨20, 20, 20⟩, none, "OrcaSlicer"⟩]
    [⟨"A", "B", "X2", ⟨30, 30, 30⟩, none, "UVtools"⟩]
    (normalize_key "A" "B")
    ⟨⟨"A", "B", "X1", ⟨20, 20, 20⟩, none, "OrcaSlicer"⟩, List.mem_singleton.mpr rfl, rfl⟩
    ⟨⟨"A", "B", "X2", ⟨30, 30, 30⟩, none, "UVtools"⟩, List.mem_singleton.mpr rfl, rfl⟩

/-! ### Claim C8 -/

/-- With duplicate-free merge keys, the merged dictionary is simply the FDM
pairs followed by the SLA pairs: the two suffixes keep the key sets
disjoint, so no insertion ever overwrites. -/
theorem mergeDict_append (fdm sla : List Record)
    (hf : (fdm.map fdm_tech_key).Nodup) (hs : (sla.map sla_tech_key).Nodup) :
    mergeDict fdm sla =
      fdm.map (fun r => (fdm_tech_key r, r)) ++ sla.map (fun r => (sla_tech_key r, r)) := by
  unfold mergeDict
  have h1 : fdm.foldl (fun m p => dinsert m (fdm_tech_key p) p) [] =
      [] ++ fdm.map (fun r => (fdm_tech_key r, r)) :=
    foldl_dinsert_append fdm_tech_key fdm [] hf (by intro r _ h; simp [dkeys] at h)
  rw [h1, List.nil_append]
  have hdisj : ∀ r ∈ sla,
      sla_tech_key r ∉ dkeys (fdm.map (fun u => (fdm_tech_key u, u))) := by
    intro r _ h
    rw [dkeys, List.map_map] at h
    obtain ⟨u, _, hu⟩ := List.mem_map.mp h
    exact fdm_key_ne_sla_key (normalize_key u.brand u.model)
      (normalize_key r.brand r.model) hu
  exact foldl_dinsert_append sla_tech_key sla _ hs hdisj

/-- With duplicate-free merge keys, `merge_printers` is the stable sort of
the concatenated inputs. -/
theorem merge_eq_sort_append (fdm sla : List Record)
    (hf : (fdm.map fdm_tech_key).Nodup) (hs : (sla.map sla_tech_key).Nodup) :
    merge_printers fdm sla = sortByKey recSortKey (fdm ++ sla) := by
  unfold merge_printers
  rw [mergeDict_append fdm sla hf hs]
  congr 1
  simp only [List.map_append, List.map_map]
  rw [show (Prod.snd ∘ fun r : Record => (fdm_tech_key r, r)) = id from rfl,
    show (Prod.snd ∘ fun r : Record => (sla_tech_key r, r)) = id from rfl,
    List.map_id, List.map_id]

/-- Equal sort keys force equal FDM merge keys. -/
theorem fdm_tech_key_eq_of_sortKey {r u : Record}
    (h : recSortKey r = recSortKey u) : fdm_tech_key r = fdm_tech_key u := by
  obtain ⟨h₁, h₂⟩ := recSortKey_eq_iff.mp h
  unfold fdm_tech_key
  rw [normalize_key_eq_of_lower h₁ h₂]

/-- Equal sort keys force equal SLA merge keys. -/
theorem sla_tech_key_eq_of_sortKey {r u : Record}
    (h : recSortKey r = recSortKey u) : sla_tech_key r = sla_tech_key u := by
  obtain ⟨h₁, h₂⟩ := recSortKey_eq_iff.mp h
  unfold sla_tech_key
  rw [normalize_key_eq_of_lower h₁ h₂]

/-- The stable sort of the concatenated inputs is invariant under
permutations of each input, provided each input has duplicate-free merge
keys: ties in the case-insensitive sort key can only pair an FDM-list record
with an SLA-list record, and stability puts the FDM one first either way. -/
theorem sort_append_order_independent (fdm sla fdm' sla' : List Record)
    (hpf : List.Perm fdm' fdm) (hps : List.Perm sla' sla)
    (hf : (fdm.map fdm_tech_key).Nodup) (hs : (sla.map sla_tech_key).Nodup) :
    sortByKey recSortKey (fdm' ++ sla') = sortByKey recSortKey (fdm ++ sla) := by
  have hf' : (fdm'.map fdm_tech_key).Nodup := ((hpf.map fdm_tech_key).nodup_iff).mpr hf
  have hs' : (sla'.map sla_tech_key).Nodup := ((hps.map sla_tech_key).nodup_iff).mpr hs
  have htagged : ∀ (a b : List Record),
      ((a.map fdm_tech_key).Nodup) → ((b.map sla_tech_key).Nodup) →
      (a.map (fun r => (r, false)) ++ b.map (fun r => (r, true))).Pairwise
        (fun p q : Record × Bool => recSortKey p.1 = recSortKey q.1 →
          p.2 = false ∧ q.2 = true) := by
    intro a b ha hb
    rw [List.pairwise_append]
    refine ⟨?_, ?_, ?_⟩
    · refine List.pairwise_map.mpr ?_
      refine (List.pairwise_map.mp ha).imp_of_mem ?_
      intro r u _ _ hne heq
      exact absurd (fdm_tech_key_eq_of_sortKey heq) hne
    · refine List.pairwise_map.mpr ?_
      refine (List.pairwise_map.mp hb).imp_of_mem ?_
      intro r u _ _ hne heq
      exact absurd (sla_tech_key_eq_of_sortKey heq) hne
    · intro p hp q hq
      obtain ⟨r, _, rfl⟩ := List.mem_map.mp hp
      obtain ⟨u, _, rfl⟩ := List.mem_map.mp hq
      exact fun _ => ⟨rfl, rfl⟩
  have hsort : ∀ (a b : List Record),
      ((a.map fdm_tech_key).Nodup) → ((b.map sla_tech_key).Nodup) →
      (sortByKey (fun p : Record × Bool => recSortKey p.1)
        (a.map (fun r => (r, false)) ++ b.map (fun r => (r, true)))).Pairwise
        (fun p q : Record × Bool => recSortKey p.1 < recSortKey q.1 ∨
          (recSortKey p.1 = recSortKey q.1 ∧ (p.2 = false ∧ q.2 = true))) := by
    intro a b ha hb
    exact sortByKey_pairwise (fun p : Record × Bool => recSortKey p.1)
      (fun p q => p.2 = false ∧ q.2 = true) _ (htagged a b ha hb)
  have hanti : ∀ (p q : Record × Bool),
      (recSortKey p.1 < recSortKey q.1 ∨
        (recSortKey p.1 = recSortKey q.1 ∧ (p.2 = false ∧ q.2 = true))) →
      (recSortKey q.1 < recSortKey p.1 ∨
        (recSortKey q.1 = recSortKey p.1 ∧ (q.2 = false ∧ p.2 = true))) →
      p = q := by
    rintro p q (h₁ | ⟨e₁, f₁, t₁⟩) (h₂ | ⟨e₂, f₂, t₂⟩)
    · exact absurd h₂ (lt_asymm h₁)
    · exact absurd (e₂ ▸ h₁) (lt_irrefl _)
    · exact absurd (e₁ ▸ h₂) (lt_irrefl _)
    · exact absurd (t₁ ▸ f₂) (by decide)
  have hperm : List.Perm
      (fdm'.map (fun r => (r, false)) ++ sla'.map (fun r => (r, true)))
      (fdm.map (fun r => (r, false)) ++ sla.map (fun r => (r, true))) :=
    List.Perm.append (hpf.map _) (hps.map _)
  have hpermsort : List.Perm
      (sortByKey (fun p : Record × Bool => recSortKey p.1)
        (fdm'.map (fun r => (r, false)) ++ sla'.map (fun r => (r, true))))
      (sortByKey (fun p : Record × Bool => recSortKey p.1)
        (fdm.map (fun r => (r, false)) ++ sla.map (fun r => (r, true)))) :=
    ((sortByKey_perm _ _).trans hperm).trans (sortByKey_perm _ _).symm
  haveI : IsAntisymm (Record × Bool)
      (fun p q : Record × Bool => recSortKey p.1 < recSortKey q.1 ∨
        (recSortKey p.1 = recSortKey q.1 ∧ (p.2 = false ∧ q.2 = true))) :=
    ⟨hanti⟩
  have heqsort := List.eq_of_perm_of_sorted hpermsort
    (hsort fdm' sla' hf' hs') (hsort fdm sla hf hs)
  have hfst : ∀ (a b : List Record),
      sortByKey recSortKey (a ++ b) =
        (sortByKey (fun p : Record × Bool => recSortKey p.1)
          (a.map (fun r => (r, false)) ++ b.map (fun r => (r, true)))).map Prod.fst := by
    intro a b
    have hm : (a.map (fun r => (r, false)) ++ b.map (fun r => (r, true))).map Prod.fst
        = a ++ b := by
      simp only [List.map_append, List.map_map]
      rw [show (Prod.fst ∘ fun r : Record => (r, false)) = id from rfl,
        show (Prod.fst ∘ fun r : Record => (r, true)) = id from rfl,
        List.map_id, List.map_id]
    rw [← hm, sortByKey_map recSortKey Prod.fst]
  rw [hfst fdm' sla', hfst fdm sla, heqsort]

/-- C8 (amended): the merged output is non-decreasing under the
case-insensitive (brand, model) ordering for all inputs; and for inputs in
which no two records of the same list share a merge key, the final order is
independent of the enumeration order of the upstream inputs. The key-nodup
hypotheses cannot be dropped: the extractors deduplicate on a coarser key,
so same-list merge-key collisions are reachable and then last-write-wins
makes the output depend on enumeration order (see the counterexample). -/
theorem C8_sorted_and_order_independent (fdm sla : List Record) :
    ((merge_printers fdm sla).Pairwise (fun a b => recSortKey a ≤ recSortKey b)) ∧
    (∀ fdm' sla', List.Perm fdm' fdm → List.Perm sla' sla →
      (fdm.map fdm_tech_key).Nodup → (sla.map sla_tech_key).Nodup →
      merge_printers fdm' sla' = merge_printers fdm sla) := by
  constructor
  · exact sortByKey_sorted recSortKey _
  · intro fdm' sla' hpf hps hf hs
    have hf' : (fdm'.map fdm_tech_key).Nodup := ((hpf.map fdm_tech_key).nodup_iff).mpr hf
    have hs' : (sla'.map sla_tech_key).Nodup := ((hps.map sla_tech_key).nodup_iff).mpr hs
    rw [merge_eq_sort_append fdm sla hf hs, merge_eq_sort_append fdm' sla' hf' hs']
    exact sort_append_order_independent fdm sla fdm' sla' hpf hps hf hs

/-- C8 witness: permuting a concrete two-record FDM input does not change
the merged output. -/
theorem C8_sorted_and_order_independent_witness :
    merge_printers
        [⟨"B", "m2", "FDM", ⟨1, 1, 1⟩, none, "OrcaSlicer"⟩,
         ⟨"A", "m1", "FDM", ⟨2, 2, 2⟩, none, "OrcaSlicer"⟩]
        [⟨"A", "m1", "SLA", ⟨3, 3, 3⟩, none, "UVtools"⟩] =
      merge_printers
        [⟨"A", "m1", "FDM", ⟨2, 2, 2⟩, none, "OrcaSlicer"⟩,
         ⟨"B", "m2", "FDM", ⟨1, 1, 1⟩, none, "OrcaSlicer"⟩]
        [⟨"A", "m1", "SLA", ⟨3, 3, 3⟩, none, "UVtools"⟩] :=
  (C8_sorted_and_order_independent
    [⟨"A", "m1", "FDM", ⟨2, 2, 2⟩, none, "OrcaSlicer"⟩,
     ⟨"B", "m2", "FDM", ⟨1, 1, 1⟩, none, "OrcaSlicer"⟩]
    [⟨"A", "m1", "SLA", ⟨3, 3, 3⟩, none, "UVtools"⟩]).2
    [⟨"B", "m2", "FDM", ⟨1, 1, 1⟩, none, "OrcaSlicer"⟩,
     ⟨"A", "m1", "FDM", ⟨2, 2, 2⟩, none, "OrcaSlicer"⟩]
    [⟨"A", "m1", "SLA", ⟨3, 3, 3⟩, none, "UVtools"⟩]
    (List.Perm.swap _ _ _) (List.Perm.refl _) (by decide) (by decide)

/-- A record whose model contains a space. Its intra-extractor
deduplication key differs from that of `rBhC`, so one extractor run can
emit both records, yet their merge keys coincide. -/
def rBC : Record := ⟨"A", "B C", "FDM", ⟨1, 1, 1⟩, none, "OrcaSlicer"⟩

/-- The same brand and a model differing from `rBC`'s only by a hyphen in
place of the space. -/
def rBhC : Record := ⟨"A", "B-C", "FDM", ⟨2, 2, 2⟩, none, "OrcaSlicer"⟩

/-- C8 counterexample: the final order does depend on the enumeration order
of an upstream input. `rBC` and `rBhC` have distinct intra-extractor
deduplication keys (so a single extractor run can emit both) but the same
merge key `a|b_c|fdm`; last-write-wins then keeps whichever came second, so
permuting the FDM input changes the merged output. -/
theorem C8_counterexample :
    List.Perm [rBhC, rBC] [rBC, rBhC] ∧
    intra_dedup_key rBC.brand rBC.model ≠ intra_dedup_key rBhC.brand rBhC.model ∧
    fdm_tech_key rBC = fdm_tech_key rBhC ∧
    merge_printers [rBC, rBhC] [] = [rBhC] ∧
    merge_printers [rBhC, rBC] [] = [rBC] ∧
    merge_printers [rBC, rBhC] [] ≠ merge_printers [rBhC, rBC] [] := by
  refine ⟨List.Perm.swap _ _ _, by decide, by decide, rfl, rfl, ?_⟩
  intro h
  have hm := congrArg (fun l : List Record => l.map Record.model) h
  exact absurd (show (["B-C"] : List String) = ["B C"] from hm) (by decide)

/-! ### Claim C1 -/

/-- A successful `processFile` step leaves the accumulated records unchanged
or appends exactly one record whose footprint passed the 10 mm check. -/
theorem processFile_chars (env : FdmEnv) (brand : String)
    (st : List Record × List String) (fi : FileInfo)
    (st' : List Record × List String) (h : processFile env brand st fi = .ok st') :
    st'.1 = st.1 ∨ ∃ r, st'.1 = st.1 ++ [r] ∧ ¬(r.volume.x < 10) := by
  unfold processFile at h
  repeat' split at h
  all_goals first
    | exact Except.noConfusion h
    | exact Or.inl (congrArg Prod.fst (Except.ok.inj h)).symm
    | exact Or.inr ⟨_, (congrArg Prod.fst (Except.ok.inj h)).symm, by assumption⟩

theorem exceptBind_ok {σ τ : Type} (a : σ) (f : σ → Except Unit τ) :
    (Except.ok a >>= f) = f a := rfl

/-- Threshold invariant preservation through a `foldlM` over `Except`. -/
theorem exceptFold_inv {σ α : Type} (g : σ → α → Except Unit σ) (P : σ → Prop)
    (hg : ∀ s a s', P s → g s a = .ok s' → P s') :
    ∀ (l : List α) (s s' : σ), P s → l.foldlM g s = .ok s' → P s' := by
  intro l
  induction l with
  | nil =>
    intro s s' hP h
    simp only [List.foldlM_nil] at h
    exact (Except.ok.inj h) ▸ hP
  | cons a t ih =>
    intro s s' hP h
    rw [List.foldlM_cons] at h
    cases hga : g s a with
    | ok s₁ =>
      rw [hga, exceptBind_ok] at h
      exact ih s₁ s' (hg s a s₁ hP hga) h
    | error e =>
      rw [hga] at h
      exact Except.noConfusion h

/-- Every record produced by the FDM extractor has a footprint of at least
10 mm. -/
theorem extract_fdm_threshold (env : FdmEnv) (l : List Record)
    (h : extract_fdm_printers env = .ok l) : ∀ r ∈ l, 10 ≤ r.volume.x := by
  have hP : ∀ (brand : String) (st st' : List Record × List String) (fi : FileInfo),
      (∀ r ∈ st.1, 10 ≤ r.volume.x) → processFile env brand st fi = .ok st' →
      ∀ r ∈ st'.1, 10 ≤ r.volume.x := by
    intro brand st st' fi hinv hstep r hr
    rcases processFile_chars env brand st fi st' hstep with he | ⟨u, he, hu⟩
    · exact hinv r (he ▸ hr)
    · rw [he] at hr
      rcases List.mem_append.mp hr with h' | h'
      · exact hinv r h'
      · rcases List.mem_singleton.mp h' with rfl
        exact not_lt.mp hu
  unfold extract_fdm_printers at h
  cases hfold : List.foldlM
      (fun st brand => (env.machine_files brand).foldlM (processFile env brand) st)
      (([], []) : List Record × List String) env.brands with
  | ok st =>
    rw [hfold] at h
    have hst : ∀ r ∈ st.1, 10 ≤ r.volume.x := by
      refine exceptFold_inv _ (fun s => ∀ r ∈ s.1, 10 ≤ r.volume.x) ?_
        env.brands ([], []) st (by simp) hfold
      intro s brand s' hs hstep
      exact exceptFold_inv (processFile env brand) (fun s => ∀ r ∈ s.1, 10 ≤ r.volume.x)
        (fun a b c => hP brand a c b) (env.machine_files brand) s s' hs hstep
    exact (Except.ok.inj h) ▸ hst
  | error e =>
    rw [hfold] at h
    exact Except.noConfusion h

/-- Every record of the merged output comes from one of the two inputs. -/
theorem merge_printers_mem (fdm sla : List Record) (r : Record)
    (h : r ∈ merge_printers fdm sla) : r ∈ fdm ∨ r ∈ sla := by
  unfold merge_printers at h
  have hvals := (sortByKey_perm recSortKey ((mergeDict fdm sla).map Prod.snd)).mem_iff.mp h
  obtain ⟨p, hp, rfl⟩ := List.mem_map.mp hvals
  rcases mergeDict_mem fdm sla p hp with ⟨u, hu, rfl⟩ | ⟨u, hu, rfl⟩
  · exact Or.inl hu
  · exact Or.inr hu

/-- C1 (amended): every record of the final merged list with a footprint
below 10 mm originates from the SLA extractor — the FDM extractor discards
sub-threshold candidates, but the SLA extractor applies no footprint
threshold at all. -/
theorem C1_threshold_only_fdm (env : FdmEnv) (response : Option String)
    (fdm sla : List Record) (r : Record)
    (hf : extract_fdm_printers env = .ok fdm)
    (hs : extract_sla_printers response = .ok sla)
    (hr : r ∈ merge_printers fdm sla) (hx : r.volume.x < 10) : r ∈ sla := by
  rcases merge_printers_mem fdm sla r hr with h | h
  · exact absurd hx (not_lt.mpr (extract_fdm_threshold env fdm hf r h))
  · exact h

/-- An environment in which the brand listing fails (or is empty): the FDM
extractor then produces no records. -/
def emptyEnv : FdmEnv := ⟨[], fun _ => [], fun _ => none, fun _ _ => none⟩

/-- A UVtools document holding one machine with a 5 mm footprint. -/
def smallDoc : String := "new(PrinterBrand.Foo, \"Bar\", 1, 1, 5f, 5f, 5f)"

/-- The single regex match of `smallDoc`. -/
def smallTuple : SlaTuple := ⟨"Foo", "Bar", "1", "1", "5", "5", "5"⟩

/-- The record the SLA extractor builds from `smallDoc`. -/
def rec5 : Record := ⟨"Foo", "Bar", "SLA", ⟨5, 5, 5⟩, none, "UVtools"⟩

theorem pyRound2_five : pyRound2 ((1 : ℚ) * ((5 : ℕ) : ℚ)) = 5 := by
  rw [pyRound2_int _ 500 (by norm_num)]
  norm_num

theorem slaRecordOf_small : slaRecordOf smallTuple = .ok rec5 := by
  have h : slaRecordOf smallTuple =
      .ok ⟨"Foo", "Bar", "SLA",
        ⟨pyRound2 ((1 : ℚ) * ((5 : ℕ) : ℚ)), pyRound2 ((1 : ℚ) * ((5 : ℕ) : ℚ)),
         pyRound2 ((1 : ℚ) * ((5 : ℕ) : ℚ))⟩, none, "UVtools"⟩ := rfl
  rw [h, pyRound2_five]
  rfl

theorem parse_machines_small : parse_machines smallDoc = .ok [rec5] := by
  unfold parse_machines
  have hscan : findMachineMatches smallDoc = [smallTuple] := rfl
  rw [hscan, List.foldlM_cons]
  have hstep : slaStep ([], []) smallTuple =
      .ok ([rec5], [intra_dedup_key "Foo" "Bar"]) := by
    unfold slaStep
    rw [if_neg (by decide), if_neg (by simp), slaRecordOf_small]
    rfl
  rw [hstep, exceptBind_ok]
  rfl

theorem extract_sla_small : extract_sla_printers (some smallDoc) = .ok [rec5] := by
  unfold extract_sla_printers fetch_machine_cs
  rw [if_neg (by decide)]
  show (match parse_machines smallDoc with
    | Except.ok printers => Except.ok (sortByKey recSortKey printers)
    | Except.error e => Except.error e) = Except.ok [rec5]
  rw [parse_machines_small]
  rfl

/-- C1 counterexample: with no FDM brands and a UVtools document declaring a
5 mm-wide machine, the final merged list contains a record whose footprint x
is below the 10 mm threshold — the SLA extractor never applies the
plausibility check. -/
theorem C1_counterexample :
    extract_fdm_printers emptyEnv = .ok [] ∧
    extract_sla_printers (some smallDoc) = .ok [rec5] ∧
    rec5 ∈ merge_printers [] [rec5] ∧
    rec5.volume.x < 10 := by
  refine ⟨rfl, extract_sla_small, ?_, by norm_num [rec5]⟩
  show rec5 ∈ merge_printers [] [rec5]
  rw [(rfl : merge_printers [] [rec5] = [rec5])]
  exact List.mem_singleton.mpr rfl

/-- C1 witness: the amended threshold theorem applied to the concrete
sub-threshold pipeline run. -/
theorem C1_threshold_only_fdm_witness :
    extract_sla_printers (some smallDoc) = .ok [rec5] ∧
    rec5.volume.x < 10 ∧ rec5 ∈ [rec5] := by
  refine ⟨extract_sla_small, by norm_num [rec5], ?_⟩
  refine C1_threshold_only_fdm emptyEnv (some smallDoc) [] [rec5] rec5 rfl
    extract_sla_small ?_ (by norm_num [rec5])
  rw [(rfl : merge_printers [] [rec5] = [rec5])]
  exact List.mem_singleton.mpr rfl

/-! ### Claim C6 -/

/-- A successful `slaStep` either keeps the state (blacklisted or duplicate
match) or appends the record built from the tuple and records its key. -/
theorem slaStep_chars (st : List Record × List String) (t : SlaTuple)
    (st' : List Record × List String) (h : slaStep st t = .ok st') :
    st' = st ∨ ∃ r, slaRecordOf t = .ok r ∧
      st' = (st.1 ++ [r], intra_dedup_key t.brand t.model :: st.2) := by
  unfold slaStep at h
  repeat' split at h
  all_goals first
    | exact Except.noConfusion h
    | exact Or.inl (Except.ok.inj h).symm
    | exact Or.inr ⟨_, by assumption, (Except.ok.inj h).symm⟩

/-- Records already accumulated survive the rest of the `parse_machines`
fold. -/
theorem slaFold_mono : ∀ (ms : List SlaTuple) (st res : List Record × List String),
    ms.foldlM slaStep st = .ok res → ∀ r ∈ st.1, r ∈ res.1 := by
  intro ms
  induction ms with
  | nil =>
    intro st res h r hr
    rw [List.foldlM_nil] at h
    exact (Except.ok.inj h) ▸ hr
  | cons m t ih =>
    intro st res h r hr
    rw [List.foldlM_cons] at h
    cases hstep : slaStep st m with
    | error e =>
      rw [hstep] at h
      exact Except.noConfusion h
    | ok st₁ =>
      rw [hstep, exceptBind_ok] at h
      rcases slaStep_chars st m st₁ hstep with rfl | ⟨u, _, rfl⟩
      · exact ih st₁ res h r hr
      · exact ih _ res h r (List.mem_append.mpr (Or.inl hr))

/-- If a tuple is the first of its deduplication key in the match list, is
not blacklisted, and its key is not yet seen, then the record built from it
is in the fold's output. -/
theorem slaFold_mem : ∀ (l₁ : List SlaTuple) (t : SlaTuple) (l₂ : List SlaTuple)
    (st res : List Record × List String) (rec : Record),
    pyLower t.model ∉ BLACKLIST_MODELS →
    (∀ u ∈ l₁, intra_dedup_key u.brand u.model ≠ intra_dedup_key t.brand t.model) →
    intra_dedup_key t.brand t.model ∉ st.2 →
    slaRecordOf t = .ok rec →
    (l₁ ++ t :: l₂).foldlM slaStep st = .ok res →
    rec ∈ res.1 := by
  intro l₁
  induction l₁ with
  | nil =>
    intro t l₂ st res rec hbl hkeys hseen hrec h
    rw [List.nil_append, List.foldlM_cons] at h
    have hstep : slaStep st t =
        .ok (st.1 ++ [rec], intra_dedup_key t.brand t.model :: st.2) := by
      unfold slaStep
      rw [if_neg hbl, if_neg hseen, hrec]
    rw [hstep, exceptBind_ok] at h
    exact slaFold_mono l₂ _ res h rec
      (List.mem_append.mpr (Or.inr (List.mem_singleton.mpr rfl)))
  | cons u l₁ ih =>
    intro t l₂ st res rec hbl hkeys hseen hrec h
    rw [List.cons_append, List.foldlM_cons] at h
    cases hstep : slaStep st u with
    | error e =>
      rw [hstep] at h
      exact Except.noConfusion h
    | ok st₁ =>
      rw [hstep, exceptBind_ok] at h
      have hseen₁ : intra_dedup_key t.brand t.model ∉ st₁.2 := by
        rcases slaStep_chars st u st₁ hstep with rfl | ⟨v, _, rfl⟩
        · exact hseen
        · intro hmem
          rcases List.mem_cons.mp hmem with he | he
          · exact hkeys u (List.mem_cons_self _ _) he.symm
          · exact hseen he
      exact ih t l₂ st₁ res rec hbl
        (fun v hv => hkeys v (List.mem_cons_of_mem _ hv)) hseen₁ hrec h

/-- The Photon M3 line of the C6 scenario. -/
def photonLine : String :=
  "new(PrinterBrand.Anycubic, \"Photon M3\", 4096, 2560, 163.84f, 102.40f, 180f, FlipDirection.Horizontally)"

/-- The seven groups captured from the Photon M3 line. -/
def photonTuple : SlaTuple :=
  ⟨"Anycubic", "Photon M3", "4096", "2560", "163.84", "102.40", "180"⟩

/-- The record the claim says the Photon M3 line produces. -/
def photonRecord : Record :=
  ⟨"Anycubic", "Photon M3", "SLA", ⟨163.84, 102.4, 180⟩, none, "UVtools"⟩

theorem pyRound2_163 :
    pyRound2 ((1 : ℚ) * (((163 : ℕ) : ℚ) + ((84 : ℕ) : ℚ) / (10 : ℚ) ^ (2 : ℕ))) = 163.84 := by
  rw [pyRound2_int _ 16384 (by norm_num)]
  norm_num

theorem pyRound2_102 :
    pyRound2 ((1 : ℚ) * (((102 : ℕ) : ℚ) + ((40 : ℕ) : ℚ) / (10 : ℚ) ^ (2 : ℕ))) = 102.4 := by
  rw [pyRound2_int _ 10240 (by norm_num)]
  norm_num

theorem pyRound2_180 : pyRound2 ((1 : ℚ) * ((180 : ℕ) : ℚ)) = 180 := by
  rw [pyRound2_int _ 18000 (by norm_num)]
  norm_num

theorem slaRecordOf_photon : slaRecordOf photonTuple = .ok photonRecord := by
  have h : slaRecordOf photonTuple =
      .ok ⟨"Anycubic", "Photon M3", "SLA",
        ⟨pyRound2 ((1 : ℚ) * (((163 : ℕ) : ℚ) + ((84 : ℕ) : ℚ) / (10 : ℚ) ^ (2 : ℕ))),
         pyRound2 ((1 : ℚ) * (((102 : ℕ) : ℚ) + ((40 : ℕ) : ℚ) / (10 : ℚ) ^ (2 : ℕ))),
         pyRound2 ((1 : ℚ) * ((180 : ℕ) : ℚ))⟩, none, "UVtools"⟩ := rfl
  rw [h, pyRound2_163, pyRound2_102, pyRound2_180]
  rfl

/-- C6 (amended): for every document whose match scan yields the Photon M3
tuple with no earlier match of the same deduplication key, whenever
`parse_machines` succeeds its output contains the record
`{brand: Anycubic, model: Photon M3, technology: SLA,
volume: {x: 163.84, y: 102.4, z: 180}}` with no image URL, the trailing
arguments of the line being ignored. -/
theorem C6_photon_line (doc pre post : String) (l₁ l₂ : List SlaTuple)
    (hdoc : doc = pre ++ photonLine ++ post)
    (hscan : findMachineMatches doc = l₁ ++ photonTuple :: l₂)
    (hfirst : ∀ u ∈ l₁,
      intra_dedup_key u.brand u.model ≠ intra_dedup_key "Anycubic" "Photon M3") :
    ∀ res, parse_machines doc = .ok res → photonRecord ∈ res := by
  intro res h
  unfold parse_machines at h
  rw [hscan] at h
  cases hfold : (l₁ ++ photonTuple :: l₂).foldlM slaStep ([], []) with
  | error e =>
    rw [hfold] at h
    exact Except.noConfusion h
  | ok st =>
    rw [hfold] at h
    have hmem := slaFold_mem l₁ photonTuple l₂ ([], []) st photonRecord
      (by decide) (fun u hu => hfirst u hu) (by simp) slaRecordOf_photon hfold
    exact (Except.ok.inj h) ▸ hmem

/-- An earlier Photon M3 definition with different dimensions. -/
def dupLine : String :=
  "new(PrinterBrand.Anycubic, \"Photon M3\", 1, 1, 50f, 50f, 50f), "

/-- A document that contains the claim's Photon M3 line after an earlier
same-key definition. -/
def docDup : String := dupLine ++ photonLine ++ ","

/-- The tuple captured from the earlier duplicate line. -/
def dupTuple : SlaTuple := ⟨"Anycubic", "Photon M3", "1", "1", "50", "50", "50"⟩

/-- The record built from the earlier duplicate line. -/
def rec50 : Record := ⟨"Anycubic", "Photon M3", "SLA", ⟨50, 50, 50⟩, none, "UVtools"⟩

theorem pyRound2_50 : pyRound2 ((1 : ℚ) * ((50 : ℕ) : ℚ)) = 50 := by
  rw [pyRound2_int _ 5000 (by norm_num)]
  norm_num

theorem slaRecordOf_dup : slaRecordOf dupTuple = .ok rec50 := by
  have h : slaRecordOf dupTuple =
      .ok ⟨"Anycubic", "Photon M3", "SLA",
        ⟨pyRound2 ((1 : ℚ) * ((50 : ℕ) : ℚ)), pyRound2 ((1 : ℚ) * ((50 : ℕ) : ℚ)),
         pyRound2 ((1 : ℚ) * ((50 : ℕ) : ℚ))⟩, none, "UVtools"⟩ := rfl
  rw [h, pyRound2_50]
  rfl

set_option maxRecDepth 40000 in
theorem parse_machines_docDup : parse_machines docDup = .ok [rec50] := by
  unfold parse_machines
  have hscan : findMachineMatches docDup = [dupTuple, photonTuple] := rfl
  rw [hscan, List.foldlM_cons]
  have hstep1 : slaStep ([], []) dupTuple =
      .ok ([rec50], [intra_dedup_key "Anycubic" "Photon M3"]) := by
    unfold slaStep
    rw [if_neg (by decide), if_neg (by simp), slaRecordOf_dup]
    rfl
  rw [hstep1, exceptBind_ok, List.foldlM_cons]
  have hstep2 : slaStep ([rec50], [intra_dedup_key "Anycubic" "Photon M3"]) photonTuple =
      .ok ([rec50], [intra_dedup_key "Anycubic" "Photon M3"]) := by
    unfold slaStep
    rw [if_neg (by decide), if_pos (by decide)]
  rw [hstep2, exceptBind_ok]
  rfl

/-- C6 counterexample: `docDup` contains the claim's Photon M3 line, yet
`parse_machines` does not emit the claimed record — an earlier definition
with the same deduplication key wins, so the output holds the 50 mm record
instead. -/
theorem C6_counterexample :
    docDup = dupLine ++ photonLine ++ "," ∧
    parse_machines docDup = .ok [rec50] ∧
    photonRecord ∉ [rec50] := by
  refine ⟨rfl, parse_machines_docDup, ?_⟩
  intro hmem
  have h := List.mem_singleton.mp hmem
  have hx := congrArg (fun r : Record => r.volume.x) h
  simp only [photonRecord, rec50] at hx
  norm_num at hx

set_option maxRecDepth 40000 in
theorem parse_machines_photonOnly :
    parse_machines (photonLine ++ ",") = .ok [photonRecord] := by
  unfold parse_machines
  have hscan : findMachineMatches (photonLine ++ ",") = [photonTuple] := rfl
  rw [hscan, List.foldlM_cons]
  have hstep : slaStep ([], []) photonTuple =
      .ok ([photonRecord], [intra_dedup_key "Anycubic" "Photon M3"]) := by
    unfold slaStep
    rw [if_neg (by decide), if_neg (by simp), slaRecordOf_photon]
    rfl
  rw [hstep, exceptBind_ok]
  rfl

/-- C6 witness: the amended theorem applied to a document that is exactly
the Photon M3 line. -/
theorem C6_photon_line_witness :
    parse_machines (photonLine ++ ",") = .ok [photonRecord] ∧
    photonRecord ∈ [photonRecord] :=
  ⟨parse_machines_photonOnly,
    C6_photon_line (photonLine ++ ",") "" "," [] [] rfl rfl
      (by simp) [photonRecord] parse_machines_photonOnly⟩
